import Mathlib

/-!
Shallow embedding of the `pyre` rate-limit counter service.

The embedding follows the Rust sources:
  * `src/cache/local.rs` — `TTLValues` (BucketSeries), `KeyMap` (KeyTable),
    `Local` (ShardedCounter) and its sweeper body `Local::lru`;
  * `src/matcher.rs` — `Link`, `ContextLinker`;
  * `src/rest.rs` — `Handler` and the request decision logic;
  * `src/config.rs` — `RateConfig`, `Config` and their `TryFrom` parsers.

Machine integers (`u64`, `u32`) are modeled as `Nat`; the places where the
Rust code can panic (unchecked `u64` subtraction, `% 0`, out-of-bounds
indexing) are modeled with `Option`, `none` standing for the panic.
`BTreeMap<u64, u64>` is modeled as an association list sorted by strictly
increasing key; `HashMap` as an association list with distinct keys.
-/

/-- `u64::abs_diff`. -/
def u64AbsDiff (a b : Nat) : Nat := if a ≤ b then b - a else a - b

/-- Unchecked `u64` subtraction `a - b`: panics (here `none`) on underflow. -/
def u64SubChecked (a b : Nat) : Option Nat := if b ≤ a then some (a - b) else none

/-- `BTreeMap::get` on a key-sorted association list (works for any list). -/
def lookupTs : List (Nat × Nat) → Nat → Option Nat
  | [], _ => none
  | p :: rest, k => if k = p.1 then some p.2 else lookupTs rest k

/-- `BTreeMap::insert` on a key-sorted association list: replace the entry
with key `k` if present, otherwise insert `(k, v)` keeping keys ordered. -/
def insertSorted : List (Nat × Nat) → Nat → Nat → List (Nat × Nat)
  | [], k, v => [(k, v)]
  | p :: rest, k, v =>
    if k < p.1 then (k, v) :: p :: rest
    else if k = p.1 then (k, v) :: rest
    else p :: insertSorted rest k v

/-- Sum of the values of an association list (`BTreeMap` value fold). -/
def sumVals : List (Nat × Nat) → Nat
  | [] => 0
  | p :: rest => p.2 + sumVals rest

/-- `TTLValues` from `src/cache/local.rs`: a window width and the ordered
map from bucket-start timestamp to count (the BucketSeries). -/
structure TTLValues where
  window : Nat
  vals : List (Nat × Nat)
deriving Repr, DecidableEq

/-- `TTLValues::new`. -/
def TTLValues.new (window : Nat) : TTLValues := ⟨window, []⟩

/-- `TTLValues::find_bucket`: look only at the most recent (largest) key
`n`; if `|val - n| < window` coalesce into `n`, else use `val` itself. -/
def TTLValues.find_bucket (t : TTLValues) (val : Nat) : Nat :=
  match t.vals.getLast? with
  | some n => if u64AbsDiff val n.1 < t.window then n.1 else val
  | none => val

/-- `TTLValues::get_inner`: the count currently stored at `find_bucket val`. -/
def TTLValues.get_inner (t : TTLValues) (val : Nat) : Nat :=
  (lookupTs t.vals (t.find_bucket val)).getD 0

/-- `TTLValues::get`: sum of all bucket counts. -/
def TTLValues.get (t : TTLValues) : Nat :=
  t.vals.foldl (fun accum p => accum + p.2) 0

/-- `TTLValues::inc`: coalescing increment.  The Rust function also returns
the updated bucket count, which no caller uses; we return the new state. -/
def TTLValues.inc (t : TTLValues) (val : Nat) : TTLValues :=
  let bucket := t.find_bucket val
  let updated := t.get_inner bucket + 1
  { t with vals := insertSorted t.vals bucket updated }

/-- `TTLValues::lru`: find the first key `≥ ttl` in ascending order; if none
exists clear the map, otherwise `split_off` at that key (drop all smaller
keys). -/
def TTLValues.lru (t : TTLValues) (ttl : Nat) : TTLValues :=
  match t.vals.find? (fun p => decide (ttl ≤ p.1)) with
  | none => { t with vals := [] }
  | some p => { t with vals := t.vals.dropWhile (fun q => decide (q.1 < p.1)) }

example : ((((TTLValues.new 1000).inc 1000).inc 1200).inc 2000).inc 2999
    = ⟨1000, [(1000, 2), (2000, 2)]⟩ := by decide

example : ((((TTLValues.new 5).inc 10).inc 20).inc 50).lru 30
    = ⟨5, [(50, 1)]⟩ := by decide

example : (((TTLValues.new 5).inc 10).inc 20).inc 12
    = ⟨5, [(10, 1), (12, 1), (20, 1)]⟩ := by decide

example : (((TTLValues.new 5).inc 10).inc 20).inc 10
    = ⟨5, [(10, 2), (20, 1)]⟩ := by decide

/-- `HashMap::get` on an association list with string keys. -/
def lookupStrT : List (String × TTLValues) → String → Option TTLValues
  | [], _ => none
  | p :: rest, k => if k = p.1 then some p.2 else lookupStrT rest k

/-- Write back a mutation done through `HashMap::get_mut`: replace the
value stored at key `k` (the key is known to be present). -/
def updateStrT (l : List (String × TTLValues)) (k : String) (v : TTLValues) :
    List (String × TTLValues) :=
  l.map (fun p => if p.1 = k then (k, v) else p)

/-- `KeyMap` from `src/cache/local.rs`: window width plus the map from
string key to `TTLValues` (the KeyTable). -/
structure KeyMap where
  window : Nat
  ttls : List (String × TTLValues)
deriving Repr, DecidableEq

/-- `KeyMap::new`. -/
def KeyMap.new (window : Nat) : KeyMap := ⟨window, []⟩

/-- `KeyMap::get_or_create`: upsert following the source's match structure.
Returns the value the Rust function returns together with the new state. -/
def KeyMap.get_or_create (m : KeyMap) (k : String) (ts : Nat) (inc : Bool) :
    Nat × KeyMap :=
  match lookupStrT m.ttls k with
  | some val =>
    match inc with
    | true =>
      let val' := val.inc ts
      (val'.get, { m with ttls := updateStrT m.ttls k val' })
    | false => (val.get, m)
  | none =>
    match inc with
    | true =>
      let val := TTLValues.new m.window
      let val' := val.inc ts
      (val'.get, { m with ttls := m.ttls ++ [(k, val')] })
    | false => (0, m)

/-- `KeyMap::lru`: `retain` trims each series at `now` and keeps only the
entries whose series is still non-empty. -/
def KeyMap.lru (m : KeyMap) (now : Nat) : KeyMap :=
  { m with
    ttls := (m.ttls.map (fun p => (p.1, p.2.lru now))).filter
      (fun p => !p.2.vals.isEmpty) }

/-- `Local` from `src/cache/local.rs` (the ShardedCounter): partition
count, ttl, sweep period, the partition array and the atomic clock.  The
partition locks are left implicit (the model is sequential). -/
structure Local where
  partition_count : Nat
  ttl : Nat
  sweep : Nat
  partitions : List KeyMap
  clock : Nat
deriving Repr, DecidableEq

def DEFAULT_PARTITIONS : Nat := 1024
def DEFAULT_TTL : Nat := 300
def DEFAULT_SWEEP : Nat := 60

/-- `Local::new`: no validation of any input; `now` stands for the wall
clock seconds the constructor reads. -/
def Local.new (partition_count ttl window sweep now : Nat) : Local :=
  { partition_count := partition_count
    ttl := ttl
    sweep := sweep
    partitions := List.replicate partition_count (KeyMap.new window)
    clock := now }

def U32_MODULUS : Nat := 2 ^ 32

/-- `Local::get_or_create`.  The hash (`twox_hash::xxh3::hash64`, an
external crate) is a parameter; `as u32` is the truncation `% 2^32`.
`none` models the panics: `% 0` when `partition_count = 0` and the
`Vec::index` bounds panic. -/
def Local.get_or_create (hash64 : String → Nat) (l : Local) (key : String)
    (create : Bool) : Option (Nat × Local) :=
  if l.partition_count = 0 then none
  else
    let partition := hash64 key % U32_MODULUS % l.partition_count
    match l.partitions.get? partition with
    | none => none
    | some inner =>
      let res := inner.get_or_create key l.clock create
      some (res.1, { l with partitions := l.partitions.set partition res.2 })

/-- The loop body of `Local::lru`: every iteration recomputes
`now = clock - ttl` with unchecked `u64` subtraction (`none` = the
underflow panic) and then sweeps that partition's `KeyMap`. -/
def Local.lruPartitions (clock ttl : Nat) : List KeyMap → Option (List KeyMap)
  | [] => some []
  | p :: rest =>
    match u64SubChecked clock ttl with
    | none => none
    | some now =>
      match Local.lruPartitions clock ttl rest with
      | none => none
      | some ps => some (p.lru now :: ps)

/-- `Local::lru` (one sweeper iteration over all partitions). -/
def Local.lru (l : Local) : Option Local :=
  (Local.lruPartitions l.clock l.ttl l.partitions).map
    (fun ps => { l with partitions := ps })

/-- `Link` from `src/matcher.rs`. -/
structure Link where
  contexts : List String
  rate : Nat
deriving Repr, DecidableEq

/-- `ContextLinker` from `src/matcher.rs`. -/
structure ContextLinker where
  contexts : List (String × Link)
  ttls : List (String × Nat)
  sweep : Nat
deriving Repr, DecidableEq

/-- `HTTPError` from `src/rest.rs` (status code as a bare number). -/
structure HTTPError where
  msg : String
  code : Nat
deriving Repr, DecidableEq

/-- `Handler` from `src/rest.rs`: one cache per collection plus the linker. -/
structure Handler where
  caches : List (String × Local)
  linker : ContextLinker
deriving Repr, DecidableEq

def lookupCache : List (String × Local) → String → Option Local
  | [], _ => none
  | p :: rest, k => if k = p.1 then some p.2 else lookupCache rest k

def updateCache (l : List (String × Local)) (k : String) (v : Local) :
    List (String × Local) :=
  l.map (fun p => if p.1 = k then (k, v) else p)

def lookupLink : List (String × Link) → String → Option Link
  | [], _ => none
  | p :: rest, k => if k = p.1 then some p.2 else lookupLink rest k

/-- `Handler::get_linked_vals`: sum `get_or_create(key, false)` over the
link's contexts, skipping contexts with no cache; a cache error becomes a
500.  `create = false` never mutates, so the handler state is read-only. -/
def Handler.get_linked_vals (hash64 : String → Nat) (h : Handler)
    (key : String) (link : Link) : Except HTTPError Nat :=
  link.contexts.foldlM
    (fun linked k =>
      match lookupCache h.caches k with
      | none => Except.ok linked
      | some related =>
        match Local.get_or_create hash64 related key false with
        | none => Except.error ⟨"failed to get val", 500⟩
        | some res => Except.ok (linked + res.1))
    0

/-- `Handler::handle`: the request path of `GET /rate/{collection}/{key}`.
`collOpt` / `keyOpt` are the (possibly missing) URL parameters; the result
is the `allowed` flag of the 200 response plus the new handler state, or
the HTTP error. -/
def Handler.handle (hash64 : String → Nat) (h : Handler)
    (collOpt keyOpt : Option String) : Except HTTPError (Bool × Handler) :=
  match collOpt with
  | none => Except.error ⟨"missing collection parameter", 400⟩
  | some coll =>
    match keyOpt with
    | none => Except.error ⟨"missing key parameter", 400⟩
    | some key =>
      match lookupCache h.caches coll with
      | none => Except.error ⟨"no cache for collection parameter", 400⟩
      | some cache =>
        match lookupLink h.linker.contexts coll with
        | none => Except.error ⟨"cannot find linker for collection parameter", 500⟩
        | some link =>
          match Local.get_or_create hash64 cache key true with
          | none => Except.error ⟨"failed to get_or_create val", 500⟩
          | some res =>
            let h' := { h with caches := updateCache h.caches coll res.2 }
            if link.rate < res.1 then Except.ok (false, h')
            else
              match Handler.get_linked_vals hash64 h' key link with
              | Except.error e => Except.error e
              | Except.ok linked =>
                Except.ok (if link.rate < linked then false else true, h')

def NAME_SEPARATOR : Char := '='
def VAL_DURATION_SEPARATOR : Char := ':'
def RATE_SEPARTOR : Char := ','
def HARDCODED_TTL : Nat := 30

/-- Rust `str::split` with a one-character pattern, on the character list.
Splitting the empty string yields one empty piece, as in Rust. -/
def splitSep (sep : Char) : List Char → List (List Char)
  | [] => [[]]
  | c :: rest =>
    match splitSep sep rest with
    | [] => if c = sep then [[], []] else [[c]]
    | g :: gs => if c = sep then [] :: g :: gs else (c :: g) :: gs

/-- Rust `str::split` with a one-character pattern, on strings. -/
def rustSplit (sep : Char) (s : String) : List String :=
  (splitSep sep s.data).map String.mk

/-- Rust `str::parse::<u64>` digit loop (an optional leading `+`, then at
least one decimal digit); overflow is ignored since counts are `Nat`. -/
def parseDigitsAux : List Char → Nat → Option Nat
  | [], acc => some acc
  | c :: rest, acc =>
    if c.isDigit then parseDigitsAux rest (acc * 10 + (c.toNat - 48)) else none

/-- Rust `str::parse::<u64>`. -/
def parseU64 (s : String) : Option Nat :=
  match s.data with
  | [] => none
  | c :: rest =>
    if c = '+' then
      match rest with
      | [] => none
      | _ => parseDigitsAux rest 0
    else parseDigitsAux (c :: rest) 0

/-- `ConfigError` from `src/config.rs`. -/
structure ConfigError where
  msg : String
deriving Repr, DecidableEq

/-- `RateConfig` from `src/config.rs`; the `std::time::Duration` window is
modeled as a number. -/
structure RateConfig where
  name : String
  count : Nat
  window : Nat
deriving Repr, DecidableEq

/-- `Config` from `src/config.rs`. -/
structure Config where
  configs : List (String × RateConfig)
  ttl_seconds : Nat
deriving Repr, DecidableEq

/-- `RateConfig::try_from(&str)`.  `Vec::pop` on the `split` results is
`getLast?` plus `dropLast`; the external `parse_duration` crate is a
parameter; `str::parse::<u64>` is `String.toNat?`. -/
def RateConfig.tryFrom (parseDuration : String → Option Nat) (value : String) :
    Except ConfigError RateConfig :=
  let name_split := rustSplit NAME_SEPARATOR value
  match name_split.getLast? with
  | none => Except.error ⟨"no rate config found"⟩
  | some rate =>
    match name_split.dropLast.getLast? with
    | none => Except.error ⟨"no name in rate"⟩
    | some name =>
      let rate_split := rustSplit VAL_DURATION_SEPARATOR rate
      match rate_split.getLast? with
      | none => Except.error ⟨"no window in rate"⟩
      | some window_raw =>
        match parseDuration window_raw with
        | none => Except.error ⟨"parse window"⟩
        | some window =>
          match rate_split.dropLast.getLast? with
          | none => Except.error ⟨"no count in rate"⟩
          | some count_raw =>
            match parseU64 count_raw with
            | none => Except.error ⟨"parse rate count"⟩
            | some count => Except.ok ⟨name, count, window⟩

/-- `Config::try_from(String)`: split on `,`, parse every entry, and on
success build the map keyed by name with `ttl_seconds := HARDCODED_TTL`. -/
def Config.tryFrom (parseDuration : String → Option Nat) (value : String) :
    Except ConfigError Config :=
  match (rustSplit RATE_SEPARTOR value).mapM (RateConfig.tryFrom parseDuration) with
  | Except.error e => Except.error e
  | Except.ok rates => Except.ok ⟨rates.map (fun e => (e.name, e)), HARDCODED_TTL⟩

deriving instance DecidableEq for Except

example :
    Config.tryFrom (fun _ => some 60) "foo=100:1 minute"
      = Except.ok ⟨[("foo", ⟨"foo", 100, 60⟩)], 30⟩ := by decide

example : (KeyMap.new 60).get_or_create "foo" 10000 true
    = (1, ⟨60, [("foo", ⟨60, [(10000, 1)]⟩)]⟩) := by decide

/-! ### Association-list lemmas for the ordered bucket map -/

theorem lookupTs_cons (p : Nat × Nat) (rest : List (Nat × Nat)) (k : Nat) :
    lookupTs (p :: rest) k = if k = p.1 then some p.2 else lookupTs rest k := rfl

theorem insertSorted_cons (p : Nat × Nat) (rest : List (Nat × Nat)) (k v : Nat) :
    insertSorted (p :: rest) k v =
      if k < p.1 then (k, v) :: p :: rest
      else if k = p.1 then (k, v) :: rest
      else p :: insertSorted rest k v := rfl

theorem sumVals_cons (p : Nat × Nat) (rest : List (Nat × Nat)) :
    sumVals (p :: rest) = p.2 + sumVals rest := rfl

theorem lookupTs_eq_none (l : List (Nat × Nat)) (k : Nat)
    (h : ∀ p ∈ l, p.1 ≠ k) : lookupTs l k = none := by
  induction l with
  | nil => rfl
  | cons p rest ih =>
    simp only [lookupTs]
    rw [if_neg fun hk => h p (List.mem_cons_self p rest) hk.symm]
    exact ih fun q hq => h q (List.mem_cons_of_mem _ hq)

theorem lookupTs_insertSorted_self (l : List (Nat × Nat)) (k v : Nat) :
    lookupTs (insertSorted l k v) k = some v := by
  induction l with
  | nil => simp [insertSorted, lookupTs]
  | cons p rest ih =>
    by_cases h1 : k < p.1
    · simp [insertSorted, h1, lookupTs]
    · by_cases h2 : k = p.1
      · simp [insertSorted, h1, h2, lookupTs]
      · simp [insertSorted, h1, h2, lookupTs, ih]

theorem mem_keys_insertSorted (l : List (Nat × Nat)) (k v a : Nat) :
    a ∈ (insertSorted l k v).map Prod.fst ↔ a ∈ l.map Prod.fst ∨ a = k := by
  induction l with
  | nil => simp [insertSorted]
  | cons p rest ih =>
    rw [insertSorted_cons]
    by_cases h1 : k < p.1
    · rw [if_pos h1]
      simp only [List.map_cons, List.mem_cons]
      tauto
    · rw [if_neg h1]
      by_cases h2 : k = p.1
      · rw [if_pos h2]
        subst h2
        simp only [List.map_cons, List.mem_cons]
        tauto
      · rw [if_neg h2]
        simp only [List.map_cons, List.mem_cons, ih]
        tauto

theorem insertSorted_pairwise (l : List (Nat × Nat)) (k v : Nat)
    (h : (l.map Prod.fst).Pairwise (· < ·)) :
    ((insertSorted l k v).map Prod.fst).Pairwise (· < ·) := by
  induction l with
  | nil => simp [insertSorted]
  | cons p rest ih =>
    rw [List.map_cons, List.pairwise_cons] at h
    obtain ⟨hp, hrest⟩ := h
    rw [insertSorted_cons]
    by_cases h1 : k < p.1
    · rw [if_pos h1]
      simp only [List.map_cons, List.pairwise_cons]
      refine ⟨?_, hp, hrest⟩
      intro b hb
      rcases List.mem_cons.mp hb with hb | hb
      · exact hb ▸ h1
      · exact lt_trans h1 (hp b hb)
    · rw [if_neg h1]
      by_cases h2 : k = p.1
      · rw [if_pos h2]
        subst h2
        simp only [List.map_cons, List.pairwise_cons]
        exact ⟨hp, hrest⟩
      · have hpk : p.1 < k :=
          lt_of_le_of_ne (Nat.le_of_not_lt h1) fun hpe => h2 hpe.symm
        rw [if_neg h2]
        simp only [List.map_cons, List.pairwise_cons]
        refine ⟨?_, ih hrest⟩
        intro b hb
        rcases (mem_keys_insertSorted rest k v b).mp hb with hb | hb
        · exact hp b hb
        · exact hb ▸ hpk

theorem insertSorted_keys_of_mem (l : List (Nat × Nat)) (k v : Nat)
    (hs : (l.map Prod.fst).Pairwise (· < ·)) (hk : k ∈ l.map Prod.fst) :
    (insertSorted l k v).map Prod.fst = l.map Prod.fst := by
  induction l with
  | nil => simp at hk
  | cons p rest ih =>
    rw [List.map_cons, List.pairwise_cons] at hs
    obtain ⟨hp, hrest⟩ := hs
    rw [insertSorted_cons]
    rcases List.mem_cons.mp hk with h | h
    · have h1 : ¬ k < p.1 := by rw [h]; exact lt_irrefl _
      rw [if_neg h1, if_pos h]
      simp [h]
    · have hlt : p.1 < k := hp k h
      have h1 : ¬ k < p.1 := Nat.not_lt.mpr (le_of_lt hlt)
      have h2 : k ≠ p.1 := (Nat.ne_of_lt hlt).symm
      rw [if_neg h1, if_neg h2]
      simp [ih hrest h]

theorem insertSorted_append (l : List (Nat × Nat)) (k v : Nat)
    (h : ∀ p ∈ l, p.1 < k) :
    insertSorted l k v = l ++ [(k, v)] := by
  induction l with
  | nil => rfl
  | cons p rest ih =>
    have hp := h p (List.mem_cons_self p rest)
    have h1 : ¬ k < p.1 := Nat.not_lt.mpr (le_of_lt hp)
    have h2 : k ≠ p.1 := (Nat.ne_of_lt hp).symm
    rw [insertSorted_cons, if_neg h1, if_neg h2,
      ih fun q hq => h q (List.mem_cons_of_mem _ hq)]
    rfl

theorem foldl_add_snd (l : List (Nat × Nat)) (a : Nat) :
    l.foldl (fun accum p => accum + p.2) a = a + sumVals l := by
  induction l generalizing a with
  | nil => simp [sumVals]
  | cons p rest ih => simp [sumVals, List.foldl_cons, ih, Nat.add_assoc]

theorem sumVals_insertSorted (l : List (Nat × Nat)) (k : Nat)
    (hs : (l.map Prod.fst).Pairwise (· < ·)) :
    sumVals (insertSorted l k ((lookupTs l k).getD 0 + 1)) = sumVals l + 1 := by
  induction l with
  | nil => simp [insertSorted, lookupTs, sumVals]
  | cons p rest ih =>
    rw [List.map_cons, List.pairwise_cons] at hs
    obtain ⟨hp, hrest⟩ := hs
    rw [lookupTs_cons, insertSorted_cons]
    by_cases h1 : k < p.1
    · have hne : k ≠ p.1 := Nat.ne_of_lt h1
      have hnone : lookupTs rest k = none := by
        refine lookupTs_eq_none rest k fun q hq => ?_
        have := hp q.1 (List.mem_map_of_mem Prod.fst hq)
        exact (Nat.ne_of_lt (lt_trans h1 this)).symm
      rw [if_neg hne, if_pos h1, hnone]
      simp only [Option.getD_none, sumVals_cons]
      omega
    · rw [if_neg h1]
      by_cases h2 : k = p.1
      · rw [if_pos h2, if_pos h2]
        simp only [Option.getD_some, sumVals_cons]
        omega
      · rw [if_neg h2, if_neg h2]
        simp only [sumVals_cons, ih hrest]
        omega

theorem keys_le_getLast (l : List (Nat × Nat)) (b : Nat × Nat)
    (hs : (l.map Prod.fst).Pairwise (· < ·)) (hb : l.getLast? = some b) :
    ∀ p ∈ l, p.1 ≤ b.1 := by
  induction l with
  | nil => simp at hb
  | cons x rest ih =>
    cases rest with
    | nil =>
      simp only [List.getLast?_singleton, Option.some_inj] at hb
      intro p hp
      rcases List.mem_cons.mp hp with h | h
      · rw [h, hb]
      · simp at h
    | cons y rs =>
      rw [List.getLast?_cons_cons] at hb
      rw [List.map_cons, List.pairwise_cons] at hs
      obtain ⟨hx, hrest⟩ := hs
      intro p hp
      rcases List.mem_cons.mp hp with h | h
      · have hbm : b ∈ y :: rs := List.mem_of_mem_getLast? hb
        have := hx b.1 (List.mem_map_of_mem Prod.fst hbm)
        exact h ▸ le_of_lt this
      · exact ih hrest hb p h

theorem lookupTs_getLast (l : List (Nat × Nat)) (b : Nat × Nat)
    (hs : (l.map Prod.fst).Pairwise (· < ·)) (hb : l.getLast? = some b) :
    lookupTs l b.1 = some b.2 := by
  induction l with
  | nil => simp at hb
  | cons x rest ih =>
    cases rest with
    | nil =>
      simp only [List.getLast?_singleton, Option.some_inj] at hb
      subst hb
      simp [lookupTs]
    | cons y rs =>
      rw [List.getLast?_cons_cons] at hb
      rw [List.map_cons, List.pairwise_cons] at hs
      obtain ⟨hx, hrest⟩ := hs
      have hbm : b ∈ y :: rs := List.mem_of_mem_getLast? hb
      have hlt : x.1 < b.1 := hx b.1 (List.mem_map_of_mem Prod.fst hbm)
      rw [lookupTs_cons, if_neg (Nat.ne_of_gt hlt)]
      exact ih hrest hb

/-! ### Lemmas about `TTLValues` -/

theorem find_bucket_idem (t : TTLValues) (v : Nat) :
    t.find_bucket (t.find_bucket v) = t.find_bucket v := by
  cases hl : t.vals.getLast? with
  | none => simp [TTLValues.find_bucket, hl]
  | some n =>
    by_cases h : u64AbsDiff v n.1 < t.window
    · simp [TTLValues.find_bucket, hl, h]
    · simp [TTLValues.find_bucket, hl, h]

/-- Unfolding of `inc`: because `find_bucket` is idempotent, the count
written is the currently stored count at the chosen bucket plus one. -/
theorem inc_vals (t : TTLValues) (v : Nat) :
    (t.inc v).vals = insertSorted t.vals (t.find_bucket v)
      ((lookupTs t.vals (t.find_bucket v)).getD 0 + 1) := by
  simp only [TTLValues.inc, TTLValues.get_inner, find_bucket_idem]

theorem inc_window (t : TTLValues) (v : Nat) : (t.inc v).window = t.window := rfl

theorem lru_window (t : TTLValues) (c : Nat) : (t.lru c).window = t.window := by
  unfold TTLValues.lru
  cases t.vals.find? (fun p => decide (c ≤ p.1)) <;> rfl

theorem get_eq_sumVals (t : TTLValues) : t.get = sumVals t.vals := by
  unfold TTLValues.get
  rw [foldl_add_snd]
  simp

theorem get_inc (t : TTLValues) (v : Nat)
    (hs : (t.vals.map Prod.fst).Pairwise (· < ·)) :
    (t.inc v).get = t.get + 1 := by
  rw [get_eq_sumVals, get_eq_sumVals, inc_vals, sumVals_insertSorted _ _ hs]

theorem inc_pairwise (t : TTLValues) (v : Nat)
    (hs : (t.vals.map Prod.fst).Pairwise (· < ·)) :
    ((t.inc v).vals.map Prod.fst).Pairwise (· < ·) := by
  rw [inc_vals]
  exact insertSorted_pairwise _ _ _ hs

/-- On a key-sorted list, the `find first key ≥ c, then split there` loop of
`TTLValues::lru` computes the same list as filtering out all keys `< c`. -/
theorem find_dropWhile_filter (l : List (Nat × Nat)) (c : Nat)
    (hs : (l.map Prod.fst).Pairwise (· < ·)) :
    (match l.find? (fun p => decide (c ≤ p.1)) with
      | none => ([] : List (Nat × Nat))
      | some p => l.dropWhile (fun q => decide (q.1 < p.1)))
    = l.filter (fun p => decide (c ≤ p.1)) := by
  induction l with
  | nil => rfl
  | cons x rest ih =>
    rw [List.map_cons, List.pairwise_cons] at hs
    obtain ⟨hx, hrest⟩ := hs
    by_cases hcx : c ≤ x.1
    · rw [List.find?_cons_of_pos _ (by simpa using hcx)]
      dsimp only
      rw [List.dropWhile_cons, if_neg (by simp : ¬ (decide (x.1 < x.1) = true)),
        List.filter_cons_of_pos (by simpa using hcx)]
      congr 1
      refine (List.filter_eq_self.mpr fun q hq => ?_).symm
      have := hx q.1 (List.mem_map_of_mem Prod.fst hq)
      exact decide_eq_true (le_trans hcx (le_of_lt this))
    · rw [List.find?_cons_of_neg _ (by simpa using hcx)]
      rw [List.filter_cons_of_neg (by simpa using hcx)]
      cases hfind : rest.find? (fun p => decide (c ≤ p.1)) with
      | none =>
        rw [hfind] at ih
        exact ih hrest
      | some p =>
        have hcp : c ≤ p.1 := by
          have := List.find?_some hfind
          simpa using this
        have hxp : x.1 < p.1 :=
          lt_of_lt_of_le (Nat.lt_of_not_le hcx) hcp
        dsimp only
        rw [List.dropWhile_cons]
        rw [if_pos (by simpa using hxp)]
        rw [hfind] at ih
        exact ih hrest

/-- `TTLValues::lru` on a sorted series keeps exactly the buckets with key
`≥ cutoff`. -/
theorem lru_vals_filter (t : TTLValues) (c : Nat)
    (hs : (t.vals.map Prod.fst).Pairwise (· < ·)) :
    (t.lru c).vals = t.vals.filter (fun p => decide (c ≤ p.1)) := by
  have h := find_dropWhile_filter t.vals c hs
  unfold TTLValues.lru
  cases hf : t.vals.find? (fun p => decide (c ≤ p.1)) with
  | none => rw [hf] at h; simpa using h
  | some p => rw [hf] at h; simpa using h

theorem lru_sublist (t : TTLValues) (c : Nat) : (t.lru c).vals.Sublist t.vals := by
  unfold TTLValues.lru
  cases t.vals.find? (fun p => decide (c ≤ p.1)) with
  | none => exact List.nil_sublist _
  | some p => exact List.dropWhile_sublist _

/-! ### The bucket-gap invariant (claim C2) -/

/-- Any two keys in list order are strictly increasing and at least `w`
apart. -/
def gapped (w : Nat) (ks : List Nat) : Prop :=
  ks.Pairwise (fun a b => a < b ∧ a + w ≤ b)

theorem gapped_pairwise_lt {w : Nat} {ks : List Nat} (h : gapped w ks) :
    ks.Pairwise (· < ·) :=
  h.imp fun hab => hab.1

theorem gapped_pairs {w : Nat} {ks : List Nat} (h : gapped w ks) :
    ∀ a ∈ ks, ∀ b ∈ ks, a < b → a + w ≤ b := by
  induction ks with
  | nil => intro a ha; simp at ha
  | cons x rest ih =>
    rw [gapped, List.pairwise_cons] at h
    obtain ⟨hx, hrest⟩ := h
    intro a ha b hb hab
    rcases List.mem_cons.mp ha with ha | ha <;>
      rcases List.mem_cons.mp hb with hb | hb
    · omega
    · have := hx b hb; omega
    · have := hx a ha; omega
    · exact ih hrest a ha b hb hab

/-- One coalescing increment with a timestamp `v` at or above the high
water mark `m` preserves the gap invariant, with new high water mark `v`. -/
theorem inc_gapped (t : TTLValues) (v m : Nat)
    (hg : gapped t.window (t.vals.map Prod.fst))
    (hle : ∀ k ∈ t.vals.map Prod.fst, k ≤ m) (hmv : m ≤ v) :
    gapped t.window ((t.inc v).vals.map Prod.fst) ∧
      ∀ k ∈ (t.inc v).vals.map Prod.fst, k ≤ v := by
  rw [inc_vals]
  cases hl : t.vals.getLast? with
  | none =>
    have hnil : t.vals = [] := List.getLast?_eq_none_iff.mp hl
    rw [hnil]
    simp [TTLValues.find_bucket, hnil, insertSorted, lookupTs, gapped]
  | some b =>
    have hbmem : b ∈ t.vals := List.mem_of_mem_getLast? hl
    have hble : b.1 ≤ m := hle b.1 (List.mem_map_of_mem Prod.fst hbmem)
    have hbv : b.1 ≤ v := le_trans hble hmv
    have habs : u64AbsDiff v b.1 = v - b.1 := by
      simp only [u64AbsDiff]
      split <;> omega
    by_cases hcase : u64AbsDiff v b.1 < t.window
    · simp only [TTLValues.find_bucket, hl, if_pos hcase]
      rw [insertSorted_keys_of_mem _ _ _ (gapped_pairwise_lt hg)
        (List.mem_map_of_mem Prod.fst hbmem)]
      exact ⟨hg, fun k hk => le_trans (hle k hk) hmv⟩
    · simp only [TTLValues.find_bucket, hl, if_neg hcase]
      by_cases hveq : v = b.1
      · rw [hveq, insertSorted_keys_of_mem _ _ _ (gapped_pairwise_lt hg)
          (List.mem_map_of_mem Prod.fst hbmem)]
        refine ⟨hg, fun k hk => ?_⟩
        exact le_trans (hle k hk) (hveq ▸ hmv)
      · have hblt : b.1 < v := lt_of_le_of_ne hbv fun he => hveq he.symm
        have hgap : t.window ≤ v - b.1 := habs ▸ Nat.le_of_not_lt hcase
        have hall : ∀ p ∈ t.vals, p.1 < v := fun p hp =>
          lt_of_le_of_lt (keys_le_getLast t.vals b (gapped_pairwise_lt hg) hl p hp) hblt
        rw [insertSorted_append _ _ _ hall, List.map_append]
        constructor
        · rw [gapped, List.pairwise_append]
          refine ⟨hg, List.pairwise_singleton _ _, ?_⟩
          intro a ha b' hb'
          simp only [List.map_cons, List.map_nil, List.mem_singleton] at hb'
          subst hb'
          obtain ⟨p, hpmem, hpa⟩ := List.mem_map.mp ha
          have h1 : a ≤ b.1 := hpa ▸ keys_le_getLast t.vals b (gapped_pairwise_lt hg) hl p hpmem
          exact ⟨lt_of_le_of_lt h1 hblt, by omega⟩
        · intro k hk
          rcases List.mem_append.mp hk with hk | hk
          · exact le_trans (hle k hk) hmv
          · simp only [List.map_cons, List.map_nil, List.mem_singleton] at hk
            exact hk.le

/-- Trimming preserves the gap invariant and the high water mark. -/
theorem lru_gapped (t : TTLValues) (c w m : Nat)
    (hg : gapped w (t.vals.map Prod.fst))
    (hle : ∀ k ∈ t.vals.map Prod.fst, k ≤ m) :
    gapped w ((t.lru c).vals.map Prod.fst) ∧
      ∀ k ∈ (t.lru c).vals.map Prod.fst, k ≤ m := by
  have hsub : ((t.lru c).vals.map Prod.fst).Sublist (t.vals.map Prod.fst) :=
    (lru_sublist t c).map Prod.fst
  exact ⟨hg.sublist hsub, fun k hk => hle k (hsub.subset hk)⟩

/-- An interleaving of the two `TTLValues` mutations. -/
inductive TTLOp where
  | inc (t : Nat)
  | trim (c : Nat)
deriving Repr, DecidableEq

def TTLValues.applyOp (s : TTLValues) : TTLOp → TTLValues
  | TTLOp.inc t => s.inc t
  | TTLOp.trim c => s.lru c

/-- Run a sequence of increments and trims on a fresh series. -/
def TTLValues.run (w : Nat) (ops : List TTLOp) : TTLValues :=
  ops.foldl TTLValues.applyOp (TTLValues.new w)

/-- The increment timestamps in the op sequence are nondecreasing and at
least `m` (the clock never runs backwards below the high water mark). -/
def IncsMonoFrom : Nat → List TTLOp → Prop
  | _, [] => True
  | m, TTLOp.inc t :: rest => m ≤ t ∧ IncsMonoFrom t rest
  | m, TTLOp.trim _ :: rest => IncsMonoFrom m rest

theorem applyOp_window (s : TTLValues) (op : TTLOp) :
    (s.applyOp op).window = s.window := by
  cases op with
  | inc t => rfl
  | trim c => exact lru_window s c

theorem run_gapped_aux (w : Nat) (ops : List TTLOp) : ∀ (s : TTLValues) (m : Nat),
    s.window = w →
    gapped w (s.vals.map Prod.fst) →
    (∀ k ∈ s.vals.map Prod.fst, k ≤ m) →
    IncsMonoFrom m ops →
    gapped w ((ops.foldl TTLValues.applyOp s).vals.map Prod.fst) := by
  induction ops with
  | nil => intro s m hw hg _ _; simpa using hg
  | cons op rest ih =>
    intro s m hw hg hle hmono
    rw [List.foldl_cons]
    cases op with
    | inc t =>
      have hmono' : m ≤ t ∧ IncsMonoFrom t rest := hmono
      have h2 := inc_gapped s t m (hw ▸ hg) hle hmono'.1
      exact ih (s.inc t) t ((inc_window s t).trans hw) (hw ▸ h2.1) h2.2 hmono'.2
    | trim c =>
      have hmono' : IncsMonoFrom m rest := hmono
      have h2 := lru_gapped s c w m hg hle
      exact ih (s.lru c) m ((lru_window s c).trans hw) h2.1 h2.2 hmono'

/-! ### Lemmas about `Local` -/

theorem lruPartitions_of_le (clock ttl : Nat) (h : ttl ≤ clock)
    (ps : List KeyMap) :
    Local.lruPartitions clock ttl ps
      = some (ps.map (fun p => p.lru (clock - ttl))) := by
  induction ps with
  | nil => rfl
  | cons p rest ih =>
    have hs : u64SubChecked clock ttl = some (clock - ttl) := by
      unfold u64SubChecked
      rw [if_pos h]
    simp only [Local.lruPartitions, hs, ih, List.map_cons]

/-! ### Fixtures for witnesses and counterexamples -/

def hashZero : String → Nat := fun _ => 0

def localFresh : Local := Local.new 1 60 60 60 100

def localFoo1 : Local :=
  { partition_count := 1, ttl := 60, sweep := 60,
    partitions := [⟨60, [("k", ⟨60, [(100, 1)]⟩)]⟩], clock := 100 }

def localBar3 : Local :=
  { partition_count := 1, ttl := 60, sweep := 60,
    partitions := [⟨60, [("k", ⟨60, [(100, 3)]⟩)]⟩], clock := 100 }

example :
    (Local.get_or_create hashZero localFresh "k" true).bind
      (fun r => (Local.get_or_create hashZero r.2 "k" true).bind
        (fun r2 => Local.get_or_create hashZero r2.2 "k" true))
    = some (3, localBar3) := by decide

def handlerC1 : Handler :=
  { caches := [("foo", localFresh), ("bar", localBar3)],
    linker := { contexts := [("foo", ⟨["bar"], 2⟩), ("bar", ⟨["foo"], 2⟩)],
                ttls := [("foo", 60), ("bar", 60)], sweep := 30 } }

def handlerC1After : Handler :=
  { caches := [("foo", localFoo1), ("bar", localBar3)],
    linker := handlerC1.linker }

/-! ### The claims -/

/-- Claim C2, counterexample.  With window 5, incrementing at 10, 20, then
12 (the clock running backwards by at least the window) creates bucket keys
10, 12, 20: the pair (10, 12) is distinct but closer than `window_secs`,
refuting the invariant for arbitrary timestamp sequences. -/
theorem c2_counterexample :
    (TTLValues.run 5 [TTLOp.inc 10, TTLOp.inc 20, TTLOp.inc 12]).vals.map Prod.fst
        = [10, 12, 20] ∧
    (0 < 12 - 10 ∧ 12 - 10 < 5) := by decide

/-- Claim C2, amended.  For every BucketSeries state reachable by a
sequence of `inc` and `lru` calls in which the increment timestamps are
nondecreasing (the monotone clock of the deployed system), any two distinct
bucket keys `k1 < k2` satisfy `window_secs ≤ k2 - k1`. -/
theorem c2_gap_invariant (w : Nat) (ops : List TTLOp)
    (hmono : IncsMonoFrom 0 ops) (k1 k2 : Nat)
    (h1 : k1 ∈ (TTLValues.run w ops).vals.map Prod.fst)
    (h2 : k2 ∈ (TTLValues.run w ops).vals.map Prod.fst)
    (hlt : k1 < k2) : w ≤ k2 - k1 := by
  have hg := run_gapped_aux w ops (TTLValues.new w) 0 rfl
    (by simp [TTLValues.new, gapped]) (by simp [TTLValues.new]) hmono
  have h := gapped_pairs hg k1 h1 k2 h2 hlt
  omega

/-- Claim C2, witness for the amended theorem at a concrete monotone run. -/
theorem c2_witness :
    (10, 1) ∈ (TTLValues.run 5 [TTLOp.inc 10, TTLOp.inc 20]).vals ∧
      5 ≤ 20 - 10 := by
  refine ⟨by decide, ?_⟩
  exact c2_gap_invariant 5 [TTLOp.inc 10, TTLOp.inc 20]
    ⟨by decide, by decide, trivial⟩ 10 20 (by decide) (by decide) (by decide)

def localUnderflow : Local := Local.new 1 300 60 60 0

/-- Claim C3, counterexample.  With clock 0 and ttl 300 and one partition,
the sweeper's cutoff subtraction underflows (`none` models the panic of the
unchecked `u64` subtraction): the error branch is reachable and the cutoff
is not the saturated 0 the claim states. -/
theorem c3_counterexample : Local.lru localUnderflow = none := by decide

/-- Claim C3, amended.  The cutoff is computed with unchecked `u64`
subtraction.  Whenever `ttl_secs ≤ clock_secs` (always true in deployment,
where the clock holds epoch seconds) the sweep succeeds and every partition
is swept with cutoff exactly `clock_secs - ttl_secs`; when
`ttl_secs > clock_secs` and a partition exists the subtraction underflows
instead of saturating to 0. -/
theorem c3_sweep_cutoff (l : Local) (h : l.ttl ≤ l.clock) :
    Local.lru l = some { l with partitions := l.partitions.map (fun p => p.lru (l.clock - l.ttl)) } := by
  unfold Local.lru
  rw [lruPartitions_of_le l.clock l.ttl h]
  rfl

def localSweepOk : Local :=
  { partition_count := 1, ttl := 30, sweep := 60,
    partitions := [⟨5, [("foo", ⟨5, [(10, 2), (35, 1)]⟩)]⟩], clock := 60 }

def localSweepOkAfter : Local :=
  { partition_count := 1, ttl := 30, sweep := 60,
    partitions := [⟨5, [("foo", ⟨5, [(35, 1)]⟩)]⟩], clock := 60 }

/-- Claim C3, witness: with clock 60 and ttl 30 the sweep runs with cutoff
30, trimming the bucket at 10 and keeping the one at 35. -/
theorem c3_witness : Local.lru localSweepOk = some localSweepOkAfter :=
  (c3_sweep_cutoff localSweepOk (by decide)).trans (by decide)

/-- Claim C4, counterexample.  Window 5, series with buckets {10: 1, 20: 1}
(last bucket 20), incrementing at 10: the delta to the last bucket is at
least the window, yet no new bucket is created — the increment lands on the
existing old bucket 10, whose count becomes 2, not the fresh `(10, 1)` the
claim requires. -/
theorem c4_counterexample :
    (TTLValues.run 5 [TTLOp.inc 10, TTLOp.inc 20]).vals.getLast? = some (20, 1) ∧
    (TTLValues.run 5 [TTLOp.inc 10, TTLOp.inc 20]).window ≤ u64AbsDiff 10 20 ∧
    (TTLValues.run 5 [TTLOp.inc 10, TTLOp.inc 20, TTLOp.inc 10]).vals
      = [(10, 2), (20, 1)] := by decide

/-- Claim C4, amended.  `increment(t)` on a sorted series: if empty, insert
`(t, 1)`; else let `b_last` be the largest key: if `|t - b_last| < window`
the count at `b_last` increases by 1 and the key set is unchanged;
otherwise the count at key `t` becomes its previous count plus one (so a
fresh bucket `(t, 1)` only when `t` was not already an old bucket key), and
the key set gains at most the key `t`. -/
theorem c4_inc_cases (s : TTLValues) (tv : Nat)
    (hs : (s.vals.map Prod.fst).Pairwise (· < ·)) :
    (s.vals = [] → (s.inc tv).vals = [(tv, 1)]) ∧
    (∀ b, s.vals.getLast? = some b →
      (u64AbsDiff tv b.1 < s.window →
        (s.inc tv).vals.map Prod.fst = s.vals.map Prod.fst ∧
        lookupTs (s.inc tv).vals b.1 = some (b.2 + 1)) ∧
      (s.window ≤ u64AbsDiff tv b.1 →
        lookupTs (s.inc tv).vals tv = some ((lookupTs s.vals tv).getD 0 + 1) ∧
        ∀ k, k ∈ (s.inc tv).vals.map Prod.fst ↔
          (k ∈ s.vals.map Prod.fst ∨ k = tv))) := by
  constructor
  · intro hnil
    rw [inc_vals]
    simp [TTLValues.find_bucket, hnil, insertSorted, lookupTs]
  · intro b hb
    constructor
    · intro hlt
      have hbucket : s.find_bucket tv = b.1 := by
        simp [TTLValues.find_bucket, hb, hlt]
      rw [inc_vals, hbucket]
      refine ⟨insertSorted_keys_of_mem _ _ _ hs
        (List.mem_map_of_mem Prod.fst (List.mem_of_mem_getLast? hb)), ?_⟩
      rw [lookupTs_getLast s.vals b hs hb]
      simp only [Option.getD_some]
      exact lookupTs_insertSorted_self s.vals b.1 (b.2 + 1)
    · intro hge
      have hbucket : s.find_bucket tv = tv := by
        simp [TTLValues.find_bucket, hb, Nat.not_lt.mpr hge]
      rw [inc_vals, hbucket]
      exact ⟨lookupTs_insertSorted_self _ _ _,
        fun k => mem_keys_insertSorted _ _ _ _⟩

/-- Claim C4, witness for the amended theorem: the backwards increment at
10 bumps the stored count at key 10 from 1 to 2. -/
theorem c4_witness :
    lookupTs ((TTLValues.run 5 [TTLOp.inc 10, TTLOp.inc 20]).inc 10).vals 10
      = some ((lookupTs (TTLValues.run 5 [TTLOp.inc 10, TTLOp.inc 20]).vals 10).getD 0
          + 1) := by
  have h := c4_inc_cases (TTLValues.run 5 [TTLOp.inc 10, TTLOp.inc 20]) 10 (by decide)
  exact ((h.2 (20, 1) (by decide)).2 (by decide)).1

/-- Claim C5.  `trim(cutoff)` on a sorted series removes exactly the
buckets with key strictly below the cutoff: the surviving list is the
filter keeping keys `≥ cutoff` (so the bucket at exactly the cutoff is
retained), every remaining key is `≥ cutoff`, and if every key was below
the cutoff the series becomes empty. -/
theorem c5_trim_exact (t : TTLValues) (c : Nat)
    (hs : (t.vals.map Prod.fst).Pairwise (· < ·)) :
    (t.lru c).vals = t.vals.filter (fun p => decide (c ≤ p.1)) ∧
    (∀ p ∈ (t.lru c).vals, c ≤ p.1) ∧
    ((∀ p ∈ t.vals, p.1 < c) → (t.lru c).vals = []) := by
  have h := lru_vals_filter t c hs
  refine ⟨h, ?_, ?_⟩
  · intro p hp
    rw [h] at hp
    simpa using List.of_mem_filter hp
  · intro hall
    rw [h]
    refine List.filter_eq_nil_iff.mpr fun p hp => ?_
    simpa using Nat.not_le.mpr (hall p hp)

/-- Claim C5, witness: trimming the series built at 10, 20, 50 (window 5)
at cutoff 30 keeps exactly the bucket at 50. -/
theorem c5_witness :
    ((TTLValues.run 5 [TTLOp.inc 10, TTLOp.inc 20, TTLOp.inc 50]).lru 30).vals
      = [(50, 1)] := by
  have h := c5_trim_exact
    (TTLValues.run 5 [TTLOp.inc 10, TTLOp.inc 20, TTLOp.inc 50]) 30 (by decide)
  exact h.1.trans (by decide)

theorem foldl_inc_get_aux (ts : List Nat) : ∀ (t : TTLValues),
    (t.vals.map Prod.fst).Pairwise (· < ·) →
    (ts.foldl TTLValues.inc t).get = t.get + ts.length := by
  induction ts with
  | nil => intro t _; simp
  | cons a rest ih =>
    intro t ht
    rw [List.foldl_cons, ih (t.inc a) (inc_pairwise t a ht), get_inc t a ht,
      List.length_cons]
    omega

/-- Claim C6.  Starting from a fresh series (equivalently, after a trim
emptied it), after any sequence of increments with arbitrary timestamps,
`total()` — the sum of counts over all buckets — equals the number of
increments performed. -/
theorem c6_total_eq_inc_count (w : Nat) (ts : List Nat) :
    (ts.foldl TTLValues.inc (TTLValues.new w)).get = ts.length := by
  have h := foldl_inc_get_aux ts (TTLValues.new w) (by simp [TTLValues.new])
  simpa [TTLValues.new, TTLValues.get] using h

/-- Claim C7.  `KeyMap::lru(cutoff)` trims every stored series at the
cutoff and then removes exactly the entries whose series became empty:
afterwards every stored entry is non-empty with all bucket keys `≥ cutoff`,
and every entry whose trimmed series is non-empty survives (with exactly
its trimmed series). -/
theorem c7_sweep_exact (km : KeyMap) (c : Nat)
    (hs : ∀ kv ∈ km.ttls, ((kv.2.vals.map Prod.fst).Pairwise (· < ·))) :
    (∀ kv ∈ (km.lru c).ttls, kv.2.vals ≠ [] ∧ ∀ p ∈ kv.2.vals, c ≤ p.1) ∧
    (∀ kv ∈ km.ttls, (kv.2.lru c).vals ≠ [] →
      (kv.1, kv.2.lru c) ∈ (km.lru c).ttls) := by
  constructor
  · intro kv hkv
    unfold KeyMap.lru at hkv
    simp only [List.mem_filter, List.mem_map] at hkv
    obtain ⟨⟨kv0, hkv0, hkveq⟩, hne⟩ := hkv
    subst hkveq
    constructor
    · simpa using hne
    · intro p hp
      have hfil := lru_vals_filter kv0.2 c (hs kv0 hkv0)
      rw [hfil] at hp
      simpa using List.of_mem_filter hp
  · intro kv hkv hne
    unfold KeyMap.lru
    simp only [List.mem_filter, List.mem_map]
    refine ⟨⟨kv, hkv, rfl⟩, ?_⟩
    simpa using hne

def kmC7 : KeyMap := ⟨5, [("a", ⟨5, [(10, 1)]⟩), ("b", ⟨5, [(50, 1)]⟩)]⟩

/-- Claim C7, witness: sweeping at cutoff 30 evicts the fully-expired entry
and keeps the entry whose trimmed series is non-empty. -/
theorem c7_witness :
    ("b", TTLValues.lru ⟨5, [(50, 1)]⟩ 30) ∈ (kmC7.lru 30).ttls := by
  have h := c7_sweep_exact kmC7 30 (by decide)
  exact h.2 ("b", ⟨5, [(50, 1)]⟩) (by decide) (by decide)

/-- Claim C8.  `get_or_create(k, ts, create := false)` on a key that is not
stored returns 0 and leaves the KeyTable state completely unchanged, for
every timestamp. -/
theorem c8_absent_key_pure (m : KeyMap) (k : String) (ts : Nat)
    (h : lookupStrT m.ttls k = none) :
    m.get_or_create k ts false = (0, m) := by
  unfold KeyMap.get_or_create
  rw [h]

def kmC8 : KeyMap := ⟨60, [("foo", ⟨60, [(100, 1)]⟩)]⟩

/-- Claim C8, witness: reading the never-inserted key "bar" returns 0 and
the table (holding an entry for "foo") is untouched. -/
theorem c8_witness : kmC8.get_or_create "bar" 42 false = (0, kmC8) :=
  c8_absent_key_pure kmC8 "bar" 42 (by decide)

def localZero : Local := Local.new 0 300 60 60 100

/-- Claim C9, counterexample.  `Local::new` performs no validation: with
`partition_count = 0` construction succeeds (there is no ConfigInvalid
error anywhere in the code), and the supposedly-total partition selection
of `get_or_create` then panics on `% 0` (modeled as `none`). -/
theorem c9_counterexample :
    localZero.partition_count = 0 ∧
    Local.get_or_create hashZero localZero "foo" true = none := by decide

/-- Claim C9, amended.  Construction never fails (no input validation at
all), and for every instance constructed with `partition_count > 0` the
partition selection `(h as u32) % partition_count` is in bounds, so
`get_or_create` always succeeds in the sequential model. -/
theorem c9_no_validation_mod_total (hash64 : String → Nat)
    (pc ttl w sw now : Nat) (key : String) (create : Bool) :
    (Local.new pc ttl w sw now).partition_count = pc ∧
    (0 < pc →
      (Local.get_or_create hash64 (Local.new pc ttl w sw now) key create).isSome
        = true) := by
  refine ⟨rfl, fun hpc => ?_⟩
  unfold Local.get_or_create Local.new
  dsimp only
  rw [if_neg (Nat.pos_iff_ne_zero.mp hpc)]
  have hget : (List.replicate pc (KeyMap.new w)).get? (hash64 key % U32_MODULUS % pc)
      = some (KeyMap.new w) := by
    rw [List.get?_eq_getElem?, List.getElem?_replicate,
      if_pos (Nat.mod_lt _ hpc)]
  rw [hget]
  rfl

/-- Claim C9, witness: with 3 partitions, `get_or_create` succeeds. -/
theorem c9_witness :
    (Local.get_or_create hashZero (Local.new 3 300 60 60 100) "foo" true).isSome
      = true :=
  (c9_no_validation_mod_total hashZero 3 300 60 60 100 "foo" true).2 (by decide)

/-- Claim C10.  For every duration parser and every configuration string on
which `Config::try_from` succeeds, the resulting `ttl_seconds` is the
constant `HARDCODED_TTL = 30`: the configuration string cannot influence
the global TTL. -/
theorem c10_ttl_hardcoded (parseDuration : String → Option Nat) (s : String)
    (cfg : Config) (h : Config.tryFrom parseDuration s = Except.ok cfg) :
    cfg.ttl_seconds = 30 := by
  unfold Config.tryFrom at h
  cases hm : (rustSplit RATE_SEPARTOR s).mapM (RateConfig.tryFrom parseDuration) with
  | error e =>
    rw [hm] at h
    exact Except.noConfusion h
  | ok rates =>
    rw [hm] at h
    have hc := Except.ok.inj h
    rw [← hc]
    rfl

def parseDurationSixty : String → Option Nat := fun _ => some 60

/-- Claim C10, witness: a successfully parsed two-field config string
yields `ttl_seconds = 30`. -/
theorem c10_witness :
    Config.ttl_seconds ⟨[("foo", ⟨"foo", 100, 60⟩)], 30⟩ = 30 :=
  c10_ttl_hardcoded parseDurationSixty "foo=100:1 minute"
    ⟨[("foo", ⟨"foo", 100, 60⟩)], 30⟩ (by decide)

/-- Claim C1, counterexample.  In a fresh collection "foo" with limit 2
linked to "bar", where "bar" already counts 3 for key "k": the core call
for ("foo", "k") returns total 1 ≤ 2, yet the handler answers
`allowed = false`, because the linked-context sum (3 from "bar") also
influences the decision — refuting both the stated iff and the claim that
no other state influences the decision. -/
theorem c1_counterexample :
    (Local.get_or_create hashZero localFresh "k" true).map Prod.fst = some 1 ∧
    ((1 : Nat) ≤ 2) ∧
    (Handler.handle hashZero handlerC1 (some "foo") (some "k")).toOption.map
        Prod.fst
      = some false := by decide

/-- Claim C1, amended.  For a 200 response, the handler's decision is
two-staged: `allowed = false` immediately when `total > count_limit`;
otherwise it computes the linked sum — `get_or_create(key, false)` summed
over the collection's linked contexts that have caches — and answers
`allowed = (linked ≤ count_limit)`.  So `allowed = true` iff
`total ≤ count_limit` and the linked sum is also `≤ count_limit`. -/
theorem c1_handler_decision (hash64 : String → Nat) (h : Handler)
    (coll key : String) (cache cache' : Local) (link : Link) (val : Nat)
    (allowed : Bool) (hres hUpd : Handler)
    (hcache : lookupCache h.caches coll = some cache)
    (hlink : lookupLink h.linker.contexts coll = some link)
    (hval : Local.get_or_create hash64 cache key true = some (val, cache'))
    (hupd : hUpd = { h with caches := updateCache h.caches coll cache' })
    (hok : Handler.handle hash64 h (some coll) (some key)
      = Except.ok (allowed, hres)) :
    (link.rate < val → allowed = false) ∧
    ((Handler.get_linked_vals hash64 hUpd key link).toOption.isSome = true →
      val ≤ link.rate → ∀ linked,
      Handler.get_linked_vals hash64 hUpd key link = Except.ok linked →
      allowed = if link.rate < linked then false else true) := by
  subst hupd
  unfold Handler.handle at hok
  dsimp only at hok
  rw [hcache] at hok
  dsimp only at hok
  rw [hlink] at hok
  dsimp only at hok
  rw [hval] at hok
  dsimp only at hok
  constructor
  · intro hlt
    rw [if_pos hlt] at hok
    have hpair := Except.ok.inj hok
    exact (congrArg Prod.fst hpair).symm
  · intro _ hle linked hlv
    rw [if_neg (Nat.not_lt.mpr hle), hlv] at hok
    have hpair := Except.ok.inj hok
    exact (congrArg Prod.fst hpair).symm

/-- Claim C1, witness for the amended theorem at the concrete state of the
counterexample: total 1 ≤ limit 2, linked sum 3 > 2, hence denied. -/
theorem c1_witness :
    false = if (2 : Nat) < 3 then false else true := by
  have h := c1_handler_decision hashZero handlerC1 "foo" "k" localFresh
    localFoo1 (Link.mk ["bar"] 2) 1 false handlerC1After handlerC1After
    (by decide) (by decide) (by decide) (by decide) (by decide)
  exact h.2 (by decide) (by decide) 3 (by decide)
